import Mathlib

/-!
Verification of the WA-estimator core (`skillmodels/estimation/wa_functions.py`)
against its natural-language specification.

The Python functions operate on pandas DataFrames / Series and numpy arrays of
floating-point numbers.  They are embedded here over the exact rationals:

* a measurement table is an association list of named columns of rationals
  (the data model guarantees that no two columns share a name);
* pandas Series are association lists or name-indexed functions;
* NaN entries produced by masking are modelled by `Option ℚ` with `none` for NaN
  (arithmetic on `none` propagates it, and means skip it, exactly as pandas
  `skipna` means and numpy NaN arithmetic behave);
* numpy 2-d arrays are Mathlib matrices over `ℚ` indexed by `Fin`.

A Python `assert` failure or `raise` is modelled by an `Option` result being
`none`; functions that cannot abort are total.
-/

open Matrix

/-- A measurement table for one factor in one period: named columns of data.
Rows are aligned by position and the table has no missing values. -/
abbrev DataTable := List (String × List ℚ)

/-- The mean `np.mean` of a list of rationals (the empty mean, NaN in numpy, becomes the
junk value `0/0 = 0` of exact division; no modelled claim evaluates it). -/
def listMean (xs : List ℚ) : ℚ := xs.sum / (xs.length : ℚ)

/-- Label lookup in an association list, with an explicit default.  The Python
code indexes Series and DataFrames only at labels that are present (a missing
label would raise `KeyError`), so the default branch lies off the modelled
domain. -/
def assocGet {α : Type} (l : List (String × α)) (name : String) (default : α) : α :=
  match l with
  | [] => default
  | c :: rest => if c.1 = name then c.2 else assocGet rest name default

/-- Column of a table selected by name. -/
def getCol (data : DataTable) (name : String) : List ℚ := assocGet data name []

/-- Sample covariance of two aligned columns with `ddof = 1`, as computed by
`DataFrame.cov` on complete data. -/
def sampleCov (xs ys : List ℚ) : ℚ :=
  (List.zipWith (fun a b => (a - listMean xs) * (b - listMean ys)) xs ys).sum
    / ((xs.length : ℚ) - 1)

/-- Entry of `data.cov()` addressed by column names, `cov.loc[a, b]`. -/
def covName (data : DataTable) (a b : String) : ℚ := sampleCov (getCol data a) (getCol data b)

/-- Entry of `data.mean()` addressed by column name. -/
def colMeanName (data : DataTable) (name : String) : ℚ := listMean (getCol data name)

/-- The embedding of `loadings_from_covs(data, normalization)`: factor loadings of the
measurements of one factor in the first period, as averages of ratios of
covariances.  The `assert nmeas >= 3` of the source is modelled by returning
`none`; otherwise the returned Series is the list of `(measurement, loading)`
pairs in column order. -/
def loadings_from_covs (data : DataTable) (load_norm : String) (load_norm_val : ℚ) :
    Option (List (String × ℚ)) :=
  let measurements := data.map Prod.fst
  if measurements.length < 3 then none
  else some (measurements.map (fun m =>
    if m = load_norm then (m, load_norm_val)
    else
      let estimates := measurements.filterMap (fun mp =>
        if mp = m ∨ mp = load_norm then none
        else some (load_norm_val * covName data m mp / covName data load_norm mp))
      (m, listMean estimates)))

/-- The embedding of `intercepts_from_means(data, normalization, loadings)`: measurement
intercepts and (when an intercept is normalized) the factor mean for one factor
in the first period.  The empty normalization list is `none`, a pair
`[name, value]` is `some (name, value)`. -/
def intercepts_from_means (data : DataTable) (normalization : Option (String × ℚ))
    (loadings : List (String × ℚ)) : List (String × ℚ) × Option ℚ :=
  let measurements := data.map Prod.fst
  match normalization with
  | none => (measurements.map (fun m => (m, colMeanName data m)), none)
  | some (intercept_norm, intercept_norm_val) =>
      let loading := assocGet loadings intercept_norm 0
      let factor_mean := (colMeanName data intercept_norm - intercept_norm_val) / loading
      (measurements.map (fun m =>
          if m = intercept_norm then (m, intercept_norm_val)
          else (m, colMeanName data m - assocGet loadings m 0 * factor_mean)),
        some factor_mean)

/-- Result of `iv_reg_array_dict`: the aligned numeric arrays for one iv
regression, plus the retained pandas row index after listwise deletion. -/
structure ArrDict where
  depvar_arr : List ℚ
  indepvars_arr : List (List ℚ)
  instruments_arr : List (List ℚ)
  non_missing_index : List ℕ
deriving DecidableEq

/-- The `(category, name)` column labels used by one iv regression:
`[('y', depvar)] + [('x', indep) for indep ...] + [('z', instr) ...]` with the
instrument names flattened from their sublists. -/
def usedVariables (depvar_name : String) (indepvar_names : List String)
    (instrument_names : List (List String)) : List (String × String) :=
  [("y", depvar_name)] ++ indepvar_names.map (fun indep => ("x", indep)) ++
    instrument_names.flatMap (fun sublist => sublist.map (fun instr => ("z", instr)))

/-- The selection `data[used_variables].dropna()`: listwise deletion of the rows missing a
value in any used column.  A row of the wide table is its pandas index label
together with a `(category, name)`-indexed mapping to possibly missing values. -/
def dropnaRows (used : List (String × String))
    (data : List (ℕ × ((String × String) → Option ℚ))) :
    List (ℕ × ((String × String) → Option ℚ)) :=
  data.filter (fun r => used.all (fun v => (r.2 v).isSome))

/-- The embedding of `iv_reg_array_dict(depvar_name, indepvar_names, instrument_names,
transition_name, data)`.  The lookup
`getattr(tf, 'iv_formula_' + transition_name)` and the patsy `dmatrix` call
live outside this core (in `skillmodels.model_functions.transition_functions`
and `patsy`).  Modelled from the spec: the formula collaborator
deterministically expands the raw `x` (resp. `z`) columns of each retained
row - with the constant column already appended - into one design-matrix row of
fixed column count, so it enters the embedding as the row-expansion functions
`indepSpec` and `instrSpec`.  The source performs no emptiness check after
`dropna`. -/
def iv_reg_array_dict (depvar_name : String) (indepvar_names : List String)
    (instrument_names : List (List String))
    (indepSpec instrSpec : (String → ℚ) → List ℚ)
    (data : List (ℕ × ((String × String) → Option ℚ))) : ArrDict :=
  let used := usedVariables depvar_name indepvar_names instrument_names
  let kept := dropnaRows used data
  let xRow := fun r : (String × String) → Option ℚ =>
    fun name => if name = "constant" then 1 else (r ("x", name)).getD 0
  let zRow := fun r : (String × String) → Option ℚ =>
    fun name => if name = "constant" then 1 else (r ("z", name)).getD 0
  { depvar_arr := kept.map (fun r => (r.2 ("y", depvar_name)).getD 0)
    indepvars_arr := kept.map (fun r => indepSpec (xRow r.2))
    instruments_arr := kept.map (fun r => instrSpec (zRow r.2))
    non_missing_index := kept.map Prod.fst }

/-- The pseudo-inverse `np.linalg.pinv`, modelled through the adjugate: for an invertible input
this equals the matrix inverse, hence exactly the Moore-Penrose pseudo-inverse
(the only case the proved claims evaluate); for a singular input the model
returns the zero matrix, keeping - like numpy pinv - a total function that
never raises on singular input. -/
def pinv {k : ℕ} (A : Matrix (Fin k) (Fin k) ℚ) : Matrix (Fin k) (Fin k) ℚ :=
  (A.det)⁻¹ • A.adjugate

/-- The embedding of `_iv_math(y, x, z, w)`: the generalized IV normal equations
`beta = pinv((xT z) w (xT z)T) (xT z) w (zT y)`.  (The dead `except` arm of the
source around `np.linalg.pinv` is unreachable: `pinv` is total.) -/
def iv_math {n k kp : ℕ} (y : Fin n → ℚ) (x : Matrix (Fin n) (Fin k) ℚ)
    (z : Matrix (Fin n) (Fin kp) ℚ) (w : Matrix (Fin kp) (Fin kp) ℚ) : Fin k → ℚ :=
  let xTz := xᵀ * z
  let helper := xTz * w
  let inverse_part := pinv (helper * xTzᵀ)
  let y_part := helper.mulVec (zᵀ.mulVec y)
  inverse_part.mulVec y_part

/-- The embedding of `_iv_gmm_weights(z, u)`: one-step weight `pinv(zT z / nobs)` when `u` is
`None`, else the two-step weight `pinv(sum_i u_i^2 z_i z_iT / nobs)`. -/
def iv_gmm_weights {n kp : ℕ} (z : Matrix (Fin n) (Fin kp) ℚ)
    (u : Option (Fin n → ℚ)) : Matrix (Fin kp) (Fin kp) ℚ :=
  match u with
  | none => pinv ((n : ℚ)⁻¹ • (zᵀ * z))
  | some u =>
      let s := (n : ℚ)⁻¹ • ∑ i : Fin n, (u i) ^ 2 • Matrix.vecMulVec (z i) (z i)
      pinv s

/-- The embedding of `iv_reg(depvar_arr, indepvars_arr, instruments_arr, fit_method)`: one-step
GMM IV estimate, refined by the residual-weighted second step exactly when
`fit_method == 'optimal'` (the source default for `fit_method` is `'2sls'`). -/
def iv_reg {n k kp : ℕ} (y : Fin n → ℚ) (x : Matrix (Fin n) (Fin k) ℚ)
    (z : Matrix (Fin n) (Fin kp) ℚ) (fit_method : String) : Fin k → ℚ :=
  let w := iv_gmm_weights z none
  let beta := iv_math y x z w
  if fit_method = "optimal" then
    let u := fun i => y i - x.mulVec beta i
    let w2 := iv_gmm_weights z (some u)
    iv_math y x z w2
  else beta

/-- pandas mean with `skipna`: the mean of the non-NaN entries of a Series,
NaN (`none`) when there is no valid entry. -/
def optMean (xs : List (Option ℚ)) : Option ℚ :=
  let v := xs.filterMap id
  if v.length = 0 then none else some (v.sum / (v.length : ℚ))

/-- The mean `relevant.mean().mean()` on the block of the masked matrix selected by the
two measurement lists: column means first, then the mean of the column means,
both skipping NaN. -/
def blockMean (s : String → String → Option ℚ) (rows cols : List String) : Option ℚ :=
  optMean (cols.map (fun j => optMean (rows.map (fun i => s i j))))

/-- NaN-propagating subtraction. -/
def optSub (a b : Option ℚ) : Option ℚ :=
  match a, b with
  | some u, some w => some (u - w)
  | _, _ => none

/-- The update `diag_series[meas_list1] -= cov_estimate`: the update of the diagonal
Series at the labels of one factor's measurement list. -/
def diagUpdate (lmeas : List String) (est : Option ℚ) (diag : String → Option ℚ) :
    String → Option ℚ :=
  fun m => if m ∈ lmeas then optSub (diag m) est else diag m

/-- The double loop of `factor_covs_and_measurement_error_variances` over the
sorted factors: for the head factor `f1` it records the within-factor block
mean and the cross block means against every later factor (the pairs with
`f2 >= f1` in sorted order), subtracts the within-factor estimate from the
diagonal Series at the measurements of `f1`, and recurses on the remaining
factors. -/
def fcLoop (mpf : String → List String) (s : String → String → Option ℚ) :
    List String → (String → Option ℚ) → List (Option ℚ) × (String → Option ℚ)
  | [], diag => ([], diag)
  | f1 :: rest, diag =>
      let ownEst := blockMean s (mpf f1) (mpf f1)
      let diag1 := diagUpdate (mpf f1) ownEst diag
      let crossEsts := rest.map (fun f2 => blockMean s (mpf f1) (mpf f2))
      let r := fcLoop mpf s rest diag1
      (ownEst :: crossEsts ++ r.1, r.2)

/-- Entry of the de-scaled covariance matrix
`scaled[i, j] = cov[i, j] / (loading_i * loading_j)`. -/
def descaled (meas_cov : String → String → ℚ) (loadings : String → ℚ) (i j : String) : ℚ :=
  meas_cov i j / (loadings i * loadings j)

/-- The embedding of `factor_covs_and_measurement_error_variances(meas_cov, loadings,
meas_per_factor)`.  The covariance DataFrame is its (duplicate-free) label
list `idx` together with the entry function `meas_cov`; the dictionary
`meas_per_factor` is its key list `factors` with the lookup `mpf`.  The source
de-scales the matrix by the outer product of the loadings, stores its
diagonal, masks the diagonal with NaN, loops over sorted factor pairs
collecting block means, subtracts each within-factor estimate from the stored
diagonal at that factor's measurements, and finally multiplies the diagonal
Series elementwise by the squared loadings. -/
def factor_covs_and_measurement_error_variances (idx : List String)
    (meas_cov : String → String → ℚ) (loadings : String → ℚ)
    (factors : List String) (mpf : String → List String) :
    List (Option ℚ) × List (String × Option ℚ) :=
  let s := fun i j =>
    if i = j then (none : Option ℚ) else some (descaled meas_cov loadings i j)
  let sortedFactors := List.insertionSort (fun a b => a ≤ b) factors
  let r := fcLoop mpf s sortedFactors (fun m => some (descaled meas_cov loadings m m))
  (r.1, idx.map (fun m => (m, (r.2 m).map (fun d => d * loadings m ^ 2))))

/-- The ordered factor pairs `(f1, f2)` with `f2` at or after `f1`, in the
order the source loop visits them. -/
def orderedFactorPairs : List String → List (String × String)
  | [] => []
  | f :: rest => (f, f) :: (rest.map (fun f2 => (f, f2)) ++ orderedFactorPairs rest)

/-- All pairs of one factor's measurement list with the diagonal self-pairs
excluded. -/
def samePairs (l : List String) : List (String × String) :=
  l.flatMap (fun i => (l.filter (fun j => j ≠ i)).map (fun j => (i, j)))

/-- The full cross product of two factors' measurement lists. -/
def crossPairs (l1 l2 : List String) : List (String × String) :=
  l1.flatMap (fun i => l2.map (fun j => (i, j)))

/-- Arithmetic mean of a matrix entry function over a list of index pairs. -/
def pairsMean (g : String → String → ℚ) (ps : List (String × String)) : ℚ :=
  ((ps.map (fun p => g p.1 p.2)).sum) / (ps.length : ℚ)

/-- The factor-pair covariance exactly as the claim states it: the mean of the
de-scaled entries over the cross product of the two measurement lists,
excluding the diagonal self-pairs when the factors coincide. -/
def claimFactorCov (g : String → String → ℚ) (mpf : String → List String)
    (f1 f2 : String) : ℚ :=
  if f1 = f2 then pairsMean g (samePairs (mpf f1))
  else pairsMean g (crossPairs (mpf f1) (mpf f2))

/-- Two factors have disjoint measurement lists (in the model every measurement
measures exactly one factor). -/
def MeasDisjoint (mpf : String → List String) (f1 f2 : String) : Prop :=
  ∀ m ∈ mpf f1, m ∉ mpf f2

/-- Discarding the guarded entries of a `filterMap` is mapping over a filter. -/
theorem filterMap_ite_none {α β : Type} (c : α → Prop) [DecidablePred c] (g : α → β)
    (l : List α) :
    (l.filterMap (fun x => if c x then none else some (g x))) =
      (l.filter (fun x => ¬ c x)).map g := by
  induction l with
  | nil => rfl
  | cons a t ih =>
      by_cases h : c a <;> simp [List.filterMap_cons, List.filter_cons, h, ih]

/-- C1: for a table with at least three columns and a normalization naming one
of them, `loadings_from_covs` succeeds; the loading of the normalized
measurement is exactly the normalization value, and the loading of every other
measurement `m` is the arithmetic mean, over the measurements distinct from `m`
and from the normalized one, of the ratios
`load_norm_val * cov(m, mp) / cov(load_norm, mp)` of sample covariances. -/
theorem loadings_from_covs_spec (data : DataTable) (nm : String) (v : ℚ)
    (h3 : 3 ≤ (data.map Prod.fst).length) (hmem : nm ∈ data.map Prod.fst) :
    ∃ L, loadings_from_covs data nm v = some L ∧
      L.map Prod.fst = data.map Prod.fst ∧
      ∀ p ∈ L,
        (p.1 = nm → p.2 = v) ∧
        (p.1 ≠ nm → p.2 = listMean
          (((data.map Prod.fst).filter (fun mp => ¬(mp = p.1 ∨ mp = nm))).map
            (fun mp => v * covName data p.1 mp / covName data nm mp))) := by
  unfold loadings_from_covs
  rw [if_neg (by omega)]
  refine ⟨_, rfl, ?_, ?_⟩
  · rw [List.map_map]
    conv_rhs => rw [← List.map_id (data.map Prod.fst)]
    refine List.map_congr_left (fun m _ => ?_)
    by_cases h : m = nm <;> simp [h]
  · intro p hp
    rcases List.mem_map.mp hp with ⟨m, hm, rfl⟩
    by_cases h : m = nm
    · subst h
      simp only [if_pos rfl]
      exact ⟨fun _ => rfl, fun hne => absurd rfl hne⟩
    · simp only [if_neg h]
      refine ⟨fun hc => absurd hc h, fun _ => ?_⟩
      rw [filterMap_ite_none (fun mp => mp = m ∨ mp = nm)
        (fun mp => v * covName data m mp / covName data nm mp) (data.map Prod.fst)]

/-- Witness for C1 at a concrete three-column table with the first column
normalized to 2. -/
theorem loadings_from_covs_spec_witness :
    (3 ≤ (([("a", [1, 2]), ("b", [1, 3]), ("c", [2, 5])] : DataTable).map Prod.fst).length ∧
      "a" ∈ ([("a", [1, 2]), ("b", [1, 3]), ("c", [2, 5])] : DataTable).map Prod.fst) ∧
    ∃ L, loadings_from_covs ([("a", [1, 2]), ("b", [1, 3]), ("c", [2, 5])] : DataTable)
        "a" 2 = some L ∧
      L.map Prod.fst =
        ([("a", [1, 2]), ("b", [1, 3]), ("c", [2, 5])] : DataTable).map Prod.fst ∧
      ∀ p ∈ L,
        (p.1 = "a" → p.2 = 2) ∧
        (p.1 ≠ "a" → p.2 = listMean
          (((([("a", [1, 2]), ("b", [1, 3]), ("c", [2, 5])] : DataTable).map Prod.fst).filter
              (fun mp => ¬(mp = p.1 ∨ mp = "a"))).map
            (fun mp =>
              2 * covName ([("a", [1, 2]), ("b", [1, 3]), ("c", [2, 5])] : DataTable) p.1 mp /
                covName ([("a", [1, 2]), ("b", [1, 3]), ("c", [2, 5])] : DataTable) "a" mp))) :=
  ⟨⟨by decide, by decide⟩,
    loadings_from_covs_spec ([("a", [1, 2]), ("b", [1, 3]), ("c", [2, 5])] : DataTable)
      "a" 2 (by decide) (by decide)⟩

/-- C2: with the empty normalization, the intercepts are exactly the column
means and the factor mean is absent; with a normalization `(nm, v)`, the factor
mean solves the normalized mean equation, the normalized intercept is exactly
`v`, and every other intercept is its column mean minus its loading times the
factor mean. -/
theorem intercepts_from_means_spec (data : DataTable) (loadings : List (String × ℚ)) :
    (intercepts_from_means data none loadings =
      ((data.map Prod.fst).map (fun m => (m, colMeanName data m)), none)) ∧
    ∀ nm v,
      (intercepts_from_means data (some (nm, v)) loadings).2 =
        some ((colMeanName data nm - v) / assocGet loadings nm 0) ∧
      ((intercepts_from_means data (some (nm, v)) loadings).1.map Prod.fst =
        data.map Prod.fst) ∧
      ∀ p ∈ (intercepts_from_means data (some (nm, v)) loadings).1,
        (p.1 = nm → p.2 = v) ∧
        (p.1 ≠ nm → p.2 = colMeanName data p.1 -
          assocGet loadings p.1 0 * ((colMeanName data nm - v) / assocGet loadings nm 0)) := by
  refine ⟨rfl, fun nm v => ?_⟩
  have h1 : (intercepts_from_means data (some (nm, v)) loadings).1 =
      (data.map Prod.fst).map (fun m =>
        if m = nm then (m, v)
        else (m, colMeanName data m - assocGet loadings m 0 *
          ((colMeanName data nm - v) / assocGet loadings nm 0))) := rfl
  refine ⟨rfl, ?_, ?_⟩
  · rw [h1, List.map_map]
    conv_rhs => rw [← List.map_id (data.map Prod.fst)]
    refine List.map_congr_left (fun m _ => ?_)
    by_cases h : m = nm <;> simp [h]
  · rw [h1]
    intro p hp
    rcases List.mem_map.mp hp with ⟨m, hm, rfl⟩
    by_cases h : m = nm
    · subst h
      simp
    · simp [h]

/-- Witness for C2 at a concrete two-column table and loadings Series. -/
theorem intercepts_from_means_spec_witness :
    (intercepts_from_means ([("a", [1, 3]), ("b", [2, 6])] : DataTable) none
        [("a", 1), ("b", 2)] =
      ((([("a", [1, 3]), ("b", [2, 6])] : DataTable).map Prod.fst).map
        (fun m => (m, colMeanName ([("a", [1, 3]), ("b", [2, 6])] : DataTable) m)), none)) ∧
    ∀ nm v,
      (intercepts_from_means ([("a", [1, 3]), ("b", [2, 6])] : DataTable) (some (nm, v))
          [("a", 1), ("b", 2)]).2 =
        some ((colMeanName ([("a", [1, 3]), ("b", [2, 6])] : DataTable) nm - v) /
          assocGet [("a", 1), ("b", 2)] nm 0) ∧
      ((intercepts_from_means ([("a", [1, 3]), ("b", [2, 6])] : DataTable) (some (nm, v))
          [("a", 1), ("b", 2)]).1.map Prod.fst =
        ([("a", [1, 3]), ("b", [2, 6])] : DataTable).map Prod.fst) ∧
      ∀ p ∈ (intercepts_from_means ([("a", [1, 3]), ("b", [2, 6])] : DataTable) (some (nm, v))
          [("a", 1), ("b", 2)]).1,
        (p.1 = nm → p.2 = v) ∧
        (p.1 ≠ nm → p.2 = colMeanName ([("a", [1, 3]), ("b", [2, 6])] : DataTable) p.1 -
          assocGet [("a", 1), ("b", 2)] p.1 0 *
            ((colMeanName ([("a", [1, 3]), ("b", [2, 6])] : DataTable) nm - v) /
              assocGet [("a", 1), ("b", 2)] nm 0)) :=
  intercepts_from_means_spec ([("a", [1, 3]), ("b", [2, 6])] : DataTable) [("a", 1), ("b", 2)]

/-- C6 counterexample: a three-column table in which the denominator covariance
`cov(normalized, third)` is exactly zero, yet `loadings_from_covs` surfaces no
error: it returns a loadings Series, silently carrying the value obtained from
the division by the zero covariance. -/
theorem loadings_from_covs_zero_denominator_counterexample :
    covName ([("a", [1, 2]), ("b", [1, 2]), ("c", [1, 1])] : DataTable) "a" "c" = 0 ∧
    loadings_from_covs ([("a", [1, 2]), ("b", [1, 2]), ("c", [1, 1])] : DataTable) "a" 1 =
      some [("a", 1), ("b", 0), ("c", 0)] := by
  constructor
  · simp [covName, sampleCov, getCol, assocGet, listMean]
  · simp [loadings_from_covs, covName, sampleCov, getCol, assocGet, listMean]

/-- C6 amended: a zero denominator covariance does not abort `loadings_from_covs`;
whenever at least three measurements are supplied the function returns a loadings
Series even though some `cov(load_norm, mp)` is exactly zero. -/
theorem loadings_from_covs_zero_denominator_no_error (data : DataTable) (nm mp : String)
    (v : ℚ) (h3 : 3 ≤ (data.map Prod.fst).length) (hzero : covName data nm mp = 0) :
    ∃ L, loadings_from_covs data nm v = some L := by
  unfold loadings_from_covs
  rw [if_neg (by omega)]
  exact ⟨_, rfl⟩

/-- Witness for the amended C6 at the concrete zero-denominator table. -/
theorem loadings_from_covs_zero_denominator_no_error_witness :
    (3 ≤ (([("a", [1, 2]), ("b", [1, 2]), ("c", [1, 1])] : DataTable).map Prod.fst).length ∧
      covName ([("a", [1, 2]), ("b", [1, 2]), ("c", [1, 1])] : DataTable) "a" "c" = 0) ∧
    ∃ L, loadings_from_covs ([("a", [1, 2]), ("b", [1, 2]), ("c", [1, 1])] : DataTable)
      "a" 1 = some L :=
  ⟨⟨by decide, by simp [covName, sampleCov, getCol, assocGet, listMean]⟩,
    loadings_from_covs_zero_denominator_no_error
      ([("a", [1, 2]), ("b", [1, 2]), ("c", [1, 1])] : DataTable) "a" "c" 1
      (by decide) (by simp [covName, sampleCov, getCol, assocGet, listMean])⟩

/-- C7: `loadings_from_covs` aborts (the `assert nmeas >= 3` fails, modelled by
`none`) exactly when the table has fewer than three columns, and succeeds with a
loadings Series whenever it has three or more. -/
theorem loadings_from_covs_needs_three_measurements (data : DataTable) (nm : String) (v : ℚ) :
    ((data.map Prod.fst).length < 3 → loadings_from_covs data nm v = none) ∧
    (3 ≤ (data.map Prod.fst).length → ∃ L, loadings_from_covs data nm v = some L) := by
  constructor
  · intro h
    unfold loadings_from_covs
    rw [if_pos h]
  · intro h
    unfold loadings_from_covs
    rw [if_neg (by omega)]
    exact ⟨_, rfl⟩

/-- Witness for C7: a two-column table aborts, a three-column table succeeds. -/
theorem loadings_from_covs_needs_three_measurements_witness :
    loadings_from_covs ([("a", [1, 2]), ("b", [1, 3])] : DataTable) "a" 1 = none ∧
    ∃ L, loadings_from_covs ([("a", [1, 2]), ("b", [1, 3]), ("c", [2, 5])] : DataTable)
      "a" 1 = some L :=
  ⟨(loadings_from_covs_needs_three_measurements
      ([("a", [1, 2]), ("b", [1, 3])] : DataTable) "a" 1).1 (by decide),
    (loadings_from_covs_needs_three_measurements
      ([("a", [1, 2]), ("b", [1, 3]), ("c", [2, 5])] : DataTable) "a" 1).2 (by decide)⟩

/-- C5 counterexample: a wide table whose single row misses every used
variable.  Listwise deletion leaves zero rows, and `iv_reg_array_dict` does not
abort with any error: it returns the dictionary of empty arrays. -/
theorem iv_reg_array_dict_empty_counterexample :
    iv_reg_array_dict "w" ["k"] [["q"]] (fun row => [row "constant", row "k"])
      (fun row => [row "constant", row "q"])
      ([(0, fun _ => none)] : List (ℕ × ((String × String) → Option ℚ))) =
      ⟨[], [], [], []⟩ := rfl

/-- C5 amended: whenever listwise deletion of rows with missing used variables
leaves zero rows, `iv_reg_array_dict` raises no error and returns the
dictionary of empty arrays (empty dependent, design and instrument arrays and
an empty retained index). -/
theorem iv_reg_array_dict_empty_no_error (depvar_name : String)
    (indepvar_names : List String) (instrument_names : List (List String))
    (indepSpec instrSpec : (String → ℚ) → List ℚ)
    (data : List (ℕ × ((String × String) → Option ℚ)))
    (h : dropnaRows (usedVariables depvar_name indepvar_names instrument_names) data = []) :
    iv_reg_array_dict depvar_name indepvar_names instrument_names indepSpec instrSpec data =
      ⟨[], [], [], []⟩ := by
  simp only [iv_reg_array_dict]
  rw [h]
  rfl

/-- Witness for the amended C5 at the concrete all-missing table. -/
theorem iv_reg_array_dict_empty_no_error_witness :
    dropnaRows (usedVariables "w" ["k"] [["q"]])
      ([(0, fun _ => none)] : List (ℕ × ((String × String) → Option ℚ))) = [] ∧
    iv_reg_array_dict "w" ["k"] [["q"]] (fun row => [row "constant", row "k"])
      (fun row => [row "constant", row "q"])
      ([(0, fun _ => none)] : List (ℕ × ((String × String) → Option ℚ))) =
      ⟨[], [], [], []⟩ :=
  ⟨rfl, iv_reg_array_dict_empty_no_error "w" ["k"] [["q"]] _ _ _ rfl⟩

/-- Over the field ℚ the adjugate formula coincides with Mathlib's matrix
inverse (which is the true inverse when the determinant is a unit). -/
theorem pinv_eq_inv {k : ℕ} (A : Matrix (Fin k) (Fin k) ℚ) : pinv A = A⁻¹ := by
  rw [Matrix.inv_def, pinv, Ring.inverse_eq_inv']

/-- C10: `iv_reg` never validates `fit_method`: for every string other than
`'optimal'` (including strings that are neither `'2sls'` nor `'optimal'`) it
returns exactly the one-step estimate, and the two-step refinement runs only
for the exact string `'optimal'`. -/
theorem iv_reg_fit_method_dispatch {n k kp : ℕ} (y : Fin n → ℚ)
    (x : Matrix (Fin n) (Fin k) ℚ) (z : Matrix (Fin n) (Fin kp) ℚ)
    (fm : String) (hfm : fm ≠ "optimal") :
    iv_reg y x z fm = iv_math y x z (iv_gmm_weights z none) ∧
    iv_reg y x z "optimal" =
      iv_math y x z (iv_gmm_weights z (some (fun i =>
        y i - x.mulVec (iv_math y x z (iv_gmm_weights z none)) i))) := by
  constructor
  · unfold iv_reg
    rw [if_neg hfm]
  · unfold iv_reg
    rw [if_pos rfl]

/-- Witness for C10 at a concrete unvalidated string and 1x1 data. -/
theorem iv_reg_fit_method_dispatch_witness :
    (("banana" : String) ≠ "optimal") ∧
    (iv_reg ![3] !![2] !![(2 : ℚ)] "banana" =
        iv_math ![3] !![2] (!![(2 : ℚ)]) (iv_gmm_weights !![(2 : ℚ)] none) ∧
      iv_reg ![3] !![2] !![(2 : ℚ)] "optimal" =
        iv_math ![3] !![2] (!![(2 : ℚ)]) (iv_gmm_weights !![(2 : ℚ)] (some (fun i =>
          ![3] i - !![2].mulVec
            (iv_math ![3] !![2] (!![(2 : ℚ)]) (iv_gmm_weights !![(2 : ℚ)] none)) i)))) :=
  ⟨by decide, iv_reg_fit_method_dispatch ![3] !![2] !![(2 : ℚ)] "banana" (by decide)⟩

/-- C8: a duplicated instrument column makes the scaled instrument
second-moment matrix `zT z / nobs` singular, so the one-step weight is the
pseudo-inverse of a singular matrix; the estimate is still computed through
`pinv` and is the well-defined length-k coefficient vector of the normal
equations (no exception path exists in the model: every operation is total). -/
theorem iv_reg_rank_deficient_instruments {n k kp : ℕ} (y : Fin n → ℚ)
    (x : Matrix (Fin n) (Fin k) ℚ) (z : Matrix (Fin n) (Fin kp) ℚ)
    (j1 j2 : Fin kp) (hne : j1 ≠ j2) (hdup : ∀ i, z i j1 = z i j2) :
    ((n : ℚ)⁻¹ • (zᵀ * z)).det = 0 ∧
    iv_reg y x z "2sls" = iv_math y x z (pinv ((n : ℚ)⁻¹ • (zᵀ * z))) := by
  constructor
  · refine Matrix.det_zero_of_column_eq hne (fun a => ?_)
    have h : (zᵀ * z) a j1 = (zᵀ * z) a j2 := by
      simp only [Matrix.mul_apply, Matrix.transpose_apply]
      exact Finset.sum_congr rfl (fun i _ => by rw [hdup i])
    simp [Matrix.smul_apply, h]
  · unfold iv_reg
    rw [if_neg (by decide)]
    rfl

/-- Witness for C8 at a 1 x 2 instrument matrix with two equal columns. -/
theorem iv_reg_rank_deficient_instruments_witness :
    ((0 : Fin 2) ≠ 1 ∧ ∀ i : Fin 1, (!![1, 1] : Matrix (Fin 1) (Fin 2) ℚ) i 0 =
      (!![1, 1] : Matrix (Fin 1) (Fin 2) ℚ) i 1) ∧
    (((1 : ℕ) : ℚ)⁻¹ • ((!![1, 1] : Matrix (Fin 1) (Fin 2) ℚ)ᵀ *
      (!![1, 1] : Matrix (Fin 1) (Fin 2) ℚ))).det = 0 ∧
    iv_reg ![3] !![2] (!![1, 1] : Matrix (Fin 1) (Fin 2) ℚ) "2sls" =
      iv_math ![3] !![2] (!![1, 1] : Matrix (Fin 1) (Fin 2) ℚ)
        (pinv (((1 : ℕ) : ℚ)⁻¹ • ((!![1, 1] : Matrix (Fin 1) (Fin 2) ℚ)ᵀ *
          (!![1, 1] : Matrix (Fin 1) (Fin 2) ℚ)))) :=
  ⟨⟨by decide, fun i => by fin_cases i <;> rfl⟩,
    iv_reg_rank_deficient_instruments ![3] !![2] (!![1, 1] : Matrix (Fin 1) (Fin 2) ℚ)
      0 1 (by decide) (fun i => by fin_cases i <;> rfl)⟩

/-- The adjugate-based pseudo-inverse commutes with transposition. -/
theorem pinv_transpose {k : ℕ} (A : Matrix (Fin k) (Fin k) ℚ) :
    (pinv A)ᵀ = pinv Aᵀ := by
  unfold pinv
  rw [Matrix.transpose_smul, Matrix.adjugate_transpose, Matrix.det_transpose]

/-- C9: both GMM weight matrices are symmetric: the one-step weight
`pinv(zT z / n)` and every two-step weight `pinv(sum_i u_i^2 z_i z_iT / n)`
equal their own transposes. -/
theorem iv_gmm_weights_symmetric {n kp : ℕ} (z : Matrix (Fin n) (Fin kp) ℚ)
    (hz : (zᵀ * z).det ≠ 0) :
    (iv_gmm_weights z none)ᵀ = iv_gmm_weights z none ∧
    ∀ u : Fin n → ℚ, (iv_gmm_weights z (some u))ᵀ = iv_gmm_weights z (some u) := by
  constructor
  · show (pinv ((n : ℚ)⁻¹ • (zᵀ * z)))ᵀ = pinv ((n : ℚ)⁻¹ • (zᵀ * z))
    rw [pinv_transpose]
    congr 1
    rw [Matrix.transpose_smul, Matrix.transpose_mul, Matrix.transpose_transpose]
  · intro u
    have hs : ((n : ℚ)⁻¹ • ∑ i : Fin n, (u i) ^ 2 • Matrix.vecMulVec (z i) (z i))ᵀ =
        (n : ℚ)⁻¹ • ∑ i : Fin n, (u i) ^ 2 • Matrix.vecMulVec (z i) (z i) := by
      ext a b
      simp only [Matrix.transpose_apply, Matrix.smul_apply, Matrix.sum_apply,
        Matrix.vecMulVec_apply, smul_eq_mul]
      congr 1
      exact Finset.sum_congr rfl (fun i _ => by ring)
    show (pinv ((n : ℚ)⁻¹ • ∑ i : Fin n, (u i) ^ 2 • Matrix.vecMulVec (z i) (z i)))ᵀ =
      pinv ((n : ℚ)⁻¹ • ∑ i : Fin n, (u i) ^ 2 • Matrix.vecMulVec (z i) (z i))
    rw [pinv_transpose, hs]

/-- Witness for C9 at a nondegenerate 1x1 instrument matrix. -/
theorem iv_gmm_weights_symmetric_witness :
    (((!![2] : Matrix (Fin 1) (Fin 1) ℚ)ᵀ * !![2]).det ≠ 0) ∧
    ((iv_gmm_weights (!![2] : Matrix (Fin 1) (Fin 1) ℚ) none)ᵀ =
      iv_gmm_weights (!![2] : Matrix (Fin 1) (Fin 1) ℚ) none ∧
    ∀ u : Fin 1 → ℚ, (iv_gmm_weights (!![2] : Matrix (Fin 1) (Fin 1) ℚ) (some u))ᵀ =
      iv_gmm_weights (!![2] : Matrix (Fin 1) (Fin 1) ℚ) (some u)) := by
  have h : ((!![2] : Matrix (Fin 1) (Fin 1) ℚ)ᵀ * !![2]).det ≠ 0 := by
    norm_num [Matrix.det_fin_one, Matrix.mul_apply]
  exact ⟨h, iv_gmm_weights_symmetric (!![2] : Matrix (Fin 1) (Fin 1) ℚ) h⟩

/-- Scaling an invertible matrix scales the pseudo-inverse inversely. -/
theorem pinv_smul {k : ℕ} (c : ℚ) (A : Matrix (Fin k) (Fin k) ℚ) (hc : c ≠ 0)
    (hA : IsUnit A.det) : pinv (c • A) = c⁻¹ • A⁻¹ := by
  rw [pinv_eq_inv]
  apply Matrix.inv_eq_right_inv
  rw [Matrix.smul_mul, Matrix.mul_smul, Matrix.mul_nonsing_inv A hA, smul_smul,
    mul_inv_cancel₀ hc, one_smul]

/-- C4: when the instruments equal the regressors and the cross-product matrix
`xT x` is invertible, the one-step (2sls) estimate of `iv_reg` is exactly the
ordinary least squares coefficient vector `(xT x)⁻¹ xT y`. -/
theorem iv_reg_reduces_to_ols {n k : ℕ} (y : Fin n → ℚ) (x : Matrix (Fin n) (Fin k) ℚ)
    (hdet : (xᵀ * x).det ≠ 0) :
    iv_reg y x x "2sls" = (xᵀ * x)⁻¹.mulVec (xᵀ.mulVec y) := by
  have hA : IsUnit (xᵀ * x).det := isUnit_iff_ne_zero.mpr hdet
  rcases Nat.eq_zero_or_pos k with hk | hk
  · subst hk
    funext i
    exact i.elim0
  rcases Nat.eq_zero_or_pos n with hn | hn
  · exfalso
    subst hn
    have hzero : xᵀ * x = 0 := by
      ext a b
      simp [Matrix.mul_apply]
    rw [hzero] at hdet
    have hne : Nonempty (Fin k) := ⟨⟨0, hk⟩⟩
    exact hdet (Matrix.det_zero hne)
  have hn0 : ((n : ℚ)) ≠ 0 := Nat.cast_ne_zero.mpr hn.ne'
  have hc : ((n : ℚ)⁻¹) ≠ 0 := inv_ne_zero hn0
  have e1 : iv_reg y x x "2sls" = iv_math y x x (pinv ((n : ℚ)⁻¹ • (xᵀ * x))) := by
    unfold iv_reg
    rw [if_neg (by decide)]
    rfl
  have hAAinv : (xᵀ * x) * (xᵀ * x)⁻¹ = 1 := Matrix.mul_nonsing_inv _ hA
  have e2 : pinv ((n : ℚ)⁻¹ • (xᵀ * x)) = (n : ℚ) • (xᵀ * x)⁻¹ := by
    rw [pinv_smul _ _ hc hA, inv_inv]
  have hAT : (xᵀ * x)ᵀ = xᵀ * x := by
    rw [Matrix.transpose_mul, Matrix.transpose_transpose]
  rw [e1, e2]
  simp only [iv_math]
  rw [hAT]
  simp only [Matrix.mul_smul]
  rw [hAAinv, Matrix.smul_mul, one_mul, pinv_smul _ _ hn0 hA]
  simp only [Matrix.smul_mulVec_assoc, Matrix.one_mulVec, Matrix.mulVec_smul, smul_smul]
  rw [mul_inv_cancel₀ hn0, one_smul]

/-- Witness for C4 at a 1-observation, 1-regressor dataset. -/
theorem iv_reg_reduces_to_ols_witness :
    (((!![2] : Matrix (Fin 1) (Fin 1) ℚ)ᵀ * !![2]).det ≠ 0) ∧
    iv_reg ![3] (!![2] : Matrix (Fin 1) (Fin 1) ℚ) !![2] "2sls" =
      ((!![2] : Matrix (Fin 1) (Fin 1) ℚ)ᵀ * !![2])⁻¹.mulVec
        ((!![2] : Matrix (Fin 1) (Fin 1) ℚ)ᵀ.mulVec ![3]) := by
  have h : ((!![2] : Matrix (Fin 1) (Fin 1) ℚ)ᵀ * !![2]).det ≠ 0 := by
    norm_num [Matrix.det_fin_one, Matrix.mul_apply]
  exact ⟨h, iv_reg_reduces_to_ols ![3] (!![2] : Matrix (Fin 1) (Fin 1) ℚ) h⟩

/-- The diagonal update at a label of the updated measurement list. -/
theorem diagUpdate_mem {lmeas : List String} {est : Option ℚ} {diag : String → Option ℚ}
    {m : String} (hm : m ∈ lmeas) : diagUpdate lmeas est diag m = optSub (diag m) est := by
  unfold diagUpdate
  rw [if_pos hm]

/-- The diagonal update leaves other labels unchanged. -/
theorem diagUpdate_not_mem {lmeas : List String} {est : Option ℚ} {diag : String → Option ℚ}
    {m : String} (hm : m ∉ lmeas) : diagUpdate lmeas est diag m = diag m := by
  unfold diagUpdate
  rw [if_neg hm]

/-- A common denominator moves out of a mapped sum. -/
theorem sum_map_div {α : Type} (l : List α) (f : α → ℚ) (c : ℚ) :
    (l.map (fun a => f a / c)).sum = (l.map f).sum / c := by
  induction l with
  | nil => simp
  | cons a t ih => simp [ih, add_div]

/-- A mapped sum of pointwise sums splits. -/
theorem sum_map_addQ {α : Type} (l : List α) (f g : α → ℚ) :
    (l.map (fun a => f a + g a)).sum = (l.map f).sum + (l.map g).sum := by
  induction l with
  | nil => simp
  | cons a t ih =>
      simp only [List.map_cons, List.sum_cons, ih]
      ring

/-- The two summation orders of a finite double sum agree. -/
theorem sum_swap {α β : Type} (l1 : List α) (l2 : List β) (F : α → β → ℚ) :
    (l1.map (fun a => (l2.map (fun b => F a b)).sum)).sum =
      (l2.map (fun b => (l1.map (fun a => F a b)).sum)).sum := by
  induction l1 with
  | nil => simp
  | cons a t ih =>
      simp only [List.map_cons, List.sum_cons]
      rw [sum_map_addQ l2 (fun b => F a b) (fun b => (t.map (fun x => F x b)).sum), ih]

/-- A sum over the entries different from a label is the guarded full sum. -/
theorem sum_filter_ne {α : Type} [DecidableEq α] (l : List α) (j : α) (h : α → ℚ) :
    ((l.filter (fun i => i ≠ j)).map h).sum =
      (l.map (fun i => if i = j then 0 else h i)).sum := by
  induction l with
  | nil => rfl
  | cons a t ih =>
      rw [List.filter_cons, List.map_cons, List.sum_cons]
      by_cases hc : a = j
      · rw [if_neg (by simp [hc]), if_pos hc, zero_add]
        exact ih
      · rw [if_pos (by simp [hc]), List.map_cons, List.sum_cons, if_neg hc, ih]

/-- Filtering one present label out of a duplicate-free list shortens it by
exactly one. -/
theorem length_filter_ne_of_nodup {α : Type} [DecidableEq α] (l : List α)
    (hnd : l.Nodup) (j : α) (hj : j ∈ l) :
    ((l.filter (fun i => i ≠ j)).length) + 1 = l.length := by
  induction l with
  | nil => cases hj
  | cons a t ih =>
      rcases List.nodup_cons.mp hnd with ⟨ha, ht⟩
      rw [List.filter_cons]
      by_cases hc : a = j
      · subst hc
        rw [if_neg (by simp)]
        have e : t.filter (fun i => i ≠ a) = t :=
          List.filter_eq_self.mpr (fun b hb => by
            simp only [ne_eq, decide_eq_true_eq]
            exact fun e2 => ha (e2 ▸ hb))
        rw [e, List.length_cons]
      · rw [if_pos (by simp [hc]), List.length_cons, List.length_cons]
        have hj2 : j ∈ t := by
          rcases List.mem_cons.mp hj with h1 | h1
          · exact absurd h1.symm hc
          · exact h1
        have := ih ht hj2
        omega

/-- Summing a constant over a list multiplies it by the length. -/
theorem length_sum_map_const {α : Type} (l : List α) (c : ℕ) :
    (l.map (fun _ => c)).sum = l.length * c := by
  induction l with
  | nil => simp
  | cons a t ih =>
      simp only [List.map_cons, List.sum_cons, List.length_cons, ih, Nat.succ_mul]
      exact Nat.add_comm c (t.length * c)

/-- A sum over a flattened list of lists is the sum of the inner sums. -/
theorem sum_map_flatMap {α β : Type} (l : List α) (f : α → List β) (g : β → ℚ) :
    ((l.flatMap f).map g).sum = (l.map (fun a => ((f a).map g).sum)).sum := by
  induction l with
  | nil => rfl
  | cons a t ih => simp [List.flatMap_cons, List.map_append, List.sum_append, ih]

/-- Collecting the defined entries of an everywhere-defined Series keeps all of
them. -/
theorem filterMap_id_map_some {α β : Type} (h : α → β) (l : List α) :
    (l.map (fun x => some (h x))).filterMap id = l.map h := by
  induction l with
  | nil => rfl
  | cons a t ih => simp [List.filterMap_cons, ih]

/-- Collecting the defined entries of one masked matrix column keeps exactly
the rows with a label different from the column label. -/
theorem filterMap_id_masked_col (g : String → String → ℚ) (l : List String) (j : String) :
    (l.map (fun i => if i = j then none else some (g i j))).filterMap id =
      (l.filter (fun i => i ≠ j)).map (fun i => g i j) := by
  induction l with
  | nil => rfl
  | cons a t ih =>
      rw [List.map_cons, List.filter_cons]
      by_cases h : a = j
      · rw [if_pos h, if_neg (by simp [h])]
        show (t.map (fun i => if i = j then none else some (g i j))).filterMap id =
          (t.filter (fun i => i ≠ j)).map (fun i => g i j)
        exact ih
      · rw [if_neg h, if_pos (by simp [h]), List.map_cons]
        show g a j :: (t.map (fun i => if i = j then none else some (g i j))).filterMap id =
          g a j :: (t.filter (fun i => i ≠ j)).map (fun i => g i j)
        rw [ih]

/-- The skipna mean of an everywhere-defined nonempty Series is the plain
mean. -/
theorem optMean_map_some {α : Type} (l : List α) (h : α → ℚ) (hne : l ≠ []) :
    optMean (l.map (fun x => some (h x))) = some ((l.map h).sum / (l.length : ℚ)) := by
  simp only [optMean, filterMap_id_map_some]
  rw [if_neg (by simp [List.length_eq_zero, hne])]
  rw [List.length_map]

/-- The block mean of a cross block of the masked matrix (two disjoint
nonempty measurement lists, so the mask never hits) is the plain mean over the
full cross product. -/
theorem blockMean_cross (g : String → String → ℚ) (l1 l2 : List String)
    (h1 : l1 ≠ []) (h2 : l2 ≠ []) (hdisj : ∀ m ∈ l1, m ∉ l2) :
    blockMean (fun i j => if i = j then none else some (g i j)) l1 l2 =
      some (pairsMean g (crossPairs l1 l2)) := by
  unfold blockMean
  have cols : l2.map (fun j => optMean (l1.map (fun i =>
      if i = j then none else some (g i j)))) =
      l2.map (fun j => some (((l1.map (fun i => g i j)).sum) / (l1.length : ℚ))) := by
    refine List.map_congr_left (fun j hj => ?_)
    have col : (l1.map (fun i => if i = j then none else some (g i j))) =
        l1.map (fun i => some (g i j)) := by
      refine List.map_congr_left (fun i hi => ?_)
      rw [if_neg]
      intro e
      exact hdisj i hi (e ▸ hj)
    rw [col, optMean_map_some _ _ h1]
  rw [cols, optMean_map_some _ _ h2]
  congr 1
  rw [sum_map_div, div_div, ← sum_swap]
  unfold pairsMean crossPairs
  rw [sum_map_flatMap, List.length_flatMap]
  simp only [List.map_map, Function.comp_def, List.length_map]
  rw [length_sum_map_const, Nat.cast_mul]

/-- The block mean of a within-factor block of the masked matrix (a
duplicate-free list of at least two measurements, the diagonal masked) is the
plain mean over the pairs with the diagonal excluded: every column loses
exactly one entry, so the pandas mean of column means equals the mean over the
off-diagonal pairs. -/
theorem blockMean_same (g : String → String → ℚ) (l : List String)
    (hnd : l.Nodup) (h2 : 2 ≤ l.length) :
    blockMean (fun i j => if i = j then none else some (g i j)) l l =
      some (pairsMean g (samePairs l)) := by
  have hne : l ≠ [] := by
    intro e
    rw [e] at h2
    simp at h2
  unfold blockMean
  have cols : l.map (fun j => optMean (l.map (fun i =>
      if i = j then none else some (g i j)))) =
      l.map (fun j => some ((((l.filter (fun i => i ≠ j)).map (fun i => g i j)).sum) /
        ((l.length - 1 : ℕ) : ℚ))) := by
    refine List.map_congr_left (fun j hj => ?_)
    have hlen1 : (l.filter (fun i => i ≠ j)).length + 1 = l.length :=
      length_filter_ne_of_nodup l hnd j hj
    simp only [optMean, filterMap_id_masked_col, List.length_map]
    rw [if_neg (by omega)]
    have e : (l.filter (fun i => i ≠ j)).length = l.length - 1 := by omega
    rw [e]
  rw [cols, optMean_map_some _ _ hne]
  congr 1
  rw [sum_map_div, div_div]
  have e1 : l.map (fun j => ((l.filter (fun i => i ≠ j)).map (fun i => g i j)).sum) =
      l.map (fun j => (l.map (fun i => if i = j then 0 else g i j)).sum) :=
    List.map_congr_left (fun j _ => sum_filter_ne l j (fun i => g i j))
  rw [e1, ← sum_swap]
  unfold pairsMean samePairs
  rw [sum_map_flatMap, List.length_flatMap]
  simp only [List.map_map, Function.comp_def, List.length_map]
  have e2 : l.map (fun i => ((l.filter (fun j => j ≠ i)).map (fun j => g i j)).sum) =
      l.map (fun i => (l.map (fun j => if i = j then 0 else g i j)).sum) := by
    refine List.map_congr_left (fun i _ => ?_)
    rw [sum_filter_ne l i (fun j => g i j)]
    refine congrArg List.sum (List.map_congr_left (fun j _ => ?_))
    by_cases h : j = i
    · rw [if_pos h, if_pos h.symm]
    · rw [if_neg h, if_neg (fun e => h e.symm)]
  rw [e2]
  have e3 : l.map (fun i => (l.filter (fun j => j ≠ i)).length) =
      l.map (fun i => l.length - 1) := by
    refine List.map_congr_left (fun i hi => ?_)
    have := length_filter_ne_of_nodup l hnd i hi
    omega
  rw [e3, length_sum_map_const, Nat.cast_mul, mul_comm]

/-- The invariant of the double loop: over any duplicate-free factor list with
pairwise disjoint, duplicate-free measurement lists of at least two
measurements, the collected block means are exactly the claimed pair means in
visit order, the diagonal Series is untouched at measurements of no listed
factor, and at a measurement of a listed factor it is the initial value minus
that factor's own claimed covariance. -/
theorem fcLoop_spec (g : String → String → ℚ) (mpf : String → List String)
    (fs : List String) (hnd : fs.Nodup)
    (hlen : ∀ f ∈ fs, 2 ≤ (mpf f).length)
    (hdisj : fs.Pairwise (MeasDisjoint mpf))
    (hmnd : ∀ f ∈ fs, (mpf f).Nodup)
    (D : String → Option ℚ) :
    ((fcLoop mpf (fun i j => if i = j then none else some (g i j)) fs D).1 =
      (orderedFactorPairs fs).map (fun p => some (claimFactorCov g mpf p.1 p.2))) ∧
    (∀ m, (∀ f ∈ fs, m ∉ mpf f) →
      (fcLoop mpf (fun i j => if i = j then none else some (g i j)) fs D).2 m = D m) ∧
    (∀ f ∈ fs, ∀ m ∈ mpf f,
      (fcLoop mpf (fun i j => if i = j then none else some (g i j)) fs D).2 m =
        optSub (D m) (some (claimFactorCov g mpf f f))) := by
  induction fs generalizing D with
  | nil =>
      refine ⟨rfl, fun m _ => rfl, fun f hf => ?_⟩
      cases hf
  | cons f1 rest ih =>
      rcases List.nodup_cons.mp hnd with ⟨hf1nr, hndr⟩
      rcases List.pairwise_cons.mp hdisj with ⟨hd1, hdr⟩
      have hlen1 : 2 ≤ (mpf f1).length := hlen f1 (List.mem_cons_self f1 rest)
      have hmnd1 : (mpf f1).Nodup := hmnd f1 (List.mem_cons_self f1 rest)
      have hlenr : ∀ f ∈ rest, 2 ≤ (mpf f).length :=
        fun f hf => hlen f (List.mem_cons_of_mem f1 hf)
      have hmndr : ∀ f ∈ rest, (mpf f).Nodup :=
        fun f hf => hmnd f (List.mem_cons_of_mem f1 hf)
      have hne1 : mpf f1 ≠ [] := by
        intro e
        rw [e] at hlen1
        simp at hlen1
      have ownEq : blockMean (fun i j => if i = j then none else some (g i j))
          (mpf f1) (mpf f1) = some (claimFactorCov g mpf f1 f1) := by
        rw [blockMean_same g (mpf f1) hmnd1 hlen1]
        rw [claimFactorCov, if_pos rfl]
      have crossEq : ∀ f2 ∈ rest,
          blockMean (fun i j => if i = j then none else some (g i j))
            (mpf f1) (mpf f2) = some (claimFactorCov g mpf f1 f2) := by
        intro f2 hf2
        have hne2 : mpf f2 ≠ [] := by
          intro e
          have h22 := hlenr f2 hf2
          rw [e] at h22
          simp at h22
        rw [blockMean_cross g (mpf f1) (mpf f2) hne1 hne2 (hd1 f2 hf2)]
        rw [claimFactorCov, if_neg (fun e => hf1nr (by rw [e]; exact hf2))]
      obtain ⟨ih1, ih2, ih3⟩ := ih hndr hlenr hdr hmndr
        (diagUpdate (mpf f1)
          (blockMean (fun i j => if i = j then none else some (g i j)) (mpf f1) (mpf f1)) D)
      refine ⟨?_, ?_, ?_⟩
      · simp only [fcLoop]
        rw [orderedFactorPairs, List.map_cons, List.map_append, List.map_map, ih1, ownEq,
          List.map_congr_left crossEq]
        simp [Function.comp_def]
      · intro m hm
        have hm1 : m ∉ mpf f1 := hm f1 (List.mem_cons_self f1 rest)
        simp only [fcLoop]
        rw [ih2 m (fun f hf => hm f (List.mem_cons_of_mem f1 hf)), diagUpdate_not_mem hm1]
      · intro f hf m hm
        simp only [fcLoop]
        rcases List.mem_cons.mp hf with hfe | hfr
        · subst hfe
          rw [ih2 m (fun fr hfr => hd1 fr hfr m hm), diagUpdate_mem hm, ownEq]
        · have hm1 : m ∉ mpf f1 := fun hx => hd1 f hfr m hx hm
          rw [ih3 f hfr m hm, diagUpdate_not_mem hm1]

/-- Looking a present label up in a Series built by tagging each index label
with a value yields that value. -/
theorem lookup_map_pair {β : Type} (v : String → β) (idx : List String) (m : String)
    (hm : m ∈ idx) :
    List.lookup m (idx.map (fun x => (x, v x))) = some (v m) := by
  induction idx with
  | nil => cases hm
  | cons a t ih =>
      by_cases h : m = a
      · subst h
        simp [List.lookup]
      · have hbeq : (m == a) = false := beq_eq_false_iff_ne.mpr h
        rcases List.mem_cons.mp hm with h1 | h1
        · exact absurd h1 h
        · simp [List.lookup, hbeq]
          exact ih h1

/-- C3: for a nonzero loadings vector and a factor-to-measurements mapping with
duplicate-free factor keys and pairwise disjoint, duplicate-free measurement
lists of at least two measurements each, the factor covariances returned by
`factor_covs_and_measurement_error_variances` are, pair by pair in
sorted-factor order (`f2` at or after `f1`), the means of the de-scaled
covariance entries over the cross product of the two measurement lists with
the diagonal self-pairs excluded when `f1 = f2`; and the error variance of
each measurement `m` of factor `f` is its de-scaled self-variance minus the
own-factor covariance estimated in the same pass, multiplied by the squared
loading of `m`. -/
theorem factor_covs_and_measurement_error_variances_spec (idx : List String)
    (meas_cov : String → String → ℚ) (loadings : String → ℚ)
    (factors : List String) (mpf : String → List String)
    (hnd : factors.Nodup)
    (hload : ∀ m, loadings m ≠ 0)
    (hlen : ∀ f ∈ factors, 2 ≤ (mpf f).length)
    (hmnd : ∀ f ∈ factors, (mpf f).Nodup)
    (hdisj : factors.Pairwise (MeasDisjoint mpf)) :
    ((factor_covs_and_measurement_error_variances idx meas_cov loadings factors mpf).1 =
      (orderedFactorPairs (List.insertionSort (fun a b => a ≤ b) factors)).map
        (fun p => some (claimFactorCov (descaled meas_cov loadings) mpf p.1 p.2))) ∧
    (∀ f ∈ factors, ∀ m ∈ mpf f, m ∈ idx →
      List.lookup m (factor_covs_and_measurement_error_variances idx meas_cov loadings
          factors mpf).2 =
        some (some ((descaled meas_cov loadings m m -
          claimFactorCov (descaled meas_cov loadings) mpf f f) * loadings m ^ 2))) := by
  have hperm : List.Perm (List.insertionSort (fun a b => a ≤ b) factors) factors :=
    List.perm_insertionSort (fun a b => a ≤ b) factors
  have snd : (List.insertionSort (fun a b => a ≤ b) factors).Nodup :=
    hperm.nodup_iff.mpr hnd
  have smem : ∀ f ∈ List.insertionSort (fun a b => a ≤ b) factors, f ∈ factors :=
    fun f hf => hperm.mem_iff.mp hf
  have slen : ∀ f ∈ List.insertionSort (fun a b => a ≤ b) factors, 2 ≤ (mpf f).length :=
    fun f hf => hlen f (smem f hf)
  have smnd : ∀ f ∈ List.insertionSort (fun a b => a ≤ b) factors, (mpf f).Nodup :=
    fun f hf => hmnd f (smem f hf)
  have hsym : Symmetric (MeasDisjoint mpf) := by
    intro a b hab m hmb hma
    exact hab m hma hmb
  have sdisj : (List.insertionSort (fun a b => a ≤ b) factors).Pairwise (MeasDisjoint mpf) :=
    (hperm.pairwise_iff (fun hab => hsym hab)).mpr hdisj
  obtain ⟨h1, h2, h3⟩ := fcLoop_spec (descaled meas_cov loadings) mpf
    (List.insertionSort (fun a b => a ≤ b) factors) snd slen sdisj smnd
    (fun m => some (descaled meas_cov loadings m m))
  constructor
  · simp only [factor_covs_and_measurement_error_variances]
    exact h1
  · intro f hf m hm hmidx
    simp only [factor_covs_and_measurement_error_variances]
    rw [lookup_map_pair _ idx m hmidx]
    have hfs : f ∈ List.insertionSort (fun a b => a ≤ b) factors := hperm.mem_iff.mpr hf
    rw [h3 f hfs m hm]
    rfl

/-- Witness for C3 at a concrete one-factor mapping with two measurements and
unit loadings. -/
theorem factor_covs_and_measurement_error_variances_spec_witness :
    (["f"].Nodup ∧ (∀ m : String, (fun _ => (1 : ℚ)) m ≠ 0) ∧
      (∀ f ∈ ["f"], 2 ≤ ((fun _ => ["a", "b"]) f : List String).length) ∧
      (∀ f ∈ ["f"], ((fun _ => ["a", "b"]) f : List String).Nodup) ∧
      List.Pairwise (MeasDisjoint (fun _ => ["a", "b"])) ["f"]) ∧
    (((factor_covs_and_measurement_error_variances ["a", "b"] (fun _ _ => 1) (fun _ => 1)
        ["f"] (fun _ => ["a", "b"])).1 =
      (orderedFactorPairs (List.insertionSort (fun a b => a ≤ b) ["f"])).map
        (fun p => some (claimFactorCov (descaled (fun _ _ => 1) (fun _ => 1))
          (fun _ => ["a", "b"]) p.1 p.2))) ∧
    (∀ f ∈ ["f"], ∀ m ∈ ((fun _ => ["a", "b"]) f : List String), m ∈ ["a", "b"] →
      List.lookup m (factor_covs_and_measurement_error_variances ["a", "b"] (fun _ _ => 1)
          (fun _ => 1) ["f"] (fun _ => ["a", "b"])).2 =
        some (some ((descaled (fun _ _ => 1) (fun _ => 1) m m -
          claimFactorCov (descaled (fun _ _ => 1) (fun _ => 1)) (fun _ => ["a", "b"]) f f) *
          (fun _ => (1 : ℚ)) m ^ 2)))) :=
  ⟨⟨by decide, fun m => one_ne_zero, by decide, by decide,
    List.Pairwise.cons (fun b hb => absurd hb (List.not_mem_nil b)) List.Pairwise.nil⟩,
    factor_covs_and_measurement_error_variances_spec ["a", "b"] (fun _ _ => 1) (fun _ => 1)
      ["f"] (fun _ => ["a", "b"]) (by decide) (fun m => one_ne_zero) (by decide) (by decide)
      (List.Pairwise.cons (fun b hb => absurd hb (List.not_mem_nil b)) List.Pairwise.nil)⟩
